import Mathlib

/-!
Verification of the scrcpy-GUI manpage option extractor.

A shallow embedding of `src/gui/scrcpy_gui.py`. Strings are modelled as
`List Char`; Python string primitives (`str.strip`, `str.split`,
`str.replace`, `str.splitlines`, the two `re.match` patterns used by the
script) are embedded as executable Lean functions. Fallible Python code
(an expression that can raise, e.g. `[][0]` → `IndexError`, or
`Path.read_text` on an unreadable file) is embedded in `Option`, with
`none` for "an exception was raised".
-/

namespace ScrcpyGui

/-- Python whitespace: the characters matched by `str.strip()`, split by
`str.split()` with no argument, and matched by the regex class `\s`
(ASCII `[ \t\n\r\f\v]` plus the Unicode whitespace code points). -/
def isPySpace (c : Char) : Bool :=
  c = ' ' || c = '\t' || c = '\n' || c = '\x0b' || c = '\x0c' || c = '\r' ||
  c = '\x1c' || c = '\x1d' || c = '\x1e' || c = '\x1f' ||
  c = '\x85' || c = '\xa0' || c = ' ' ||
  (' ' ≤ c && c ≤ ' ') ||
  c = ' ' || c = ' ' || c = ' ' || c = ' ' || c = '　'

/-- Python `s.strip(chars)` for a one-character class given as a predicate: drop
the characters satisfying `p` from both ends. With `p = isPySpace` this is
Python's `str.strip()`; with `p = (· == '"')` it is `str.strip('"')`. -/
def pyStrip (p : Char → Bool) (s : List Char) : List Char :=
  ((s.dropWhile p).reverse.dropWhile p).reverse

/-- Python `s.split(sep)` for a single-character separator: splits on every
occurrence, keeping empty fields. The result is never the empty list
(Python: `''.split(',') == ['']`). -/
def pySplitOn (sep : Char) : List Char → List (List Char)
  | [] => [[]]
  | c :: cs =>
    if c = sep then [] :: pySplitOn sep cs
    else
      match pySplitOn sep cs with
      | [] => [[c]]
      | g :: gs => (c :: g) :: gs

/-- Helper for `pySplitWS`: `acc` is the current word, reversed
(`none` when no word is open). -/
def splitWSGo : Option (List Char) → List Char → List (List Char)
  | none, [] => []
  | some w, [] => [w.reverse]
  | none, c :: cs =>
    if isPySpace c then splitWSGo none cs else splitWSGo (some [c]) cs
  | some w, c :: cs =>
    if isPySpace c then w.reverse :: splitWSGo none cs
    else splitWSGo (some (c :: w)) cs

/-- Python `s.split()` with no argument: split on runs of whitespace, discarding
empty fields (Python: `''.split() == []`, `' a  b '.split() == ['a','b']`). -/
def pySplitWS (s : List Char) : List (List Char) :=
  splitWSGo none s

/-- Python `s.replace("\\-", "-")`: rewrite every (leftmost, non-overlapping)
occurrence of backslash-hyphen to a plain hyphen. -/
def replaceBH : List Char → List Char
  | '\\' :: '-' :: rest => '-' :: replaceBH rest
  | c :: rest => c :: replaceBH rest
  | [] => []

/-- Line-break characters recognised by Python's `str.splitlines()`. -/
def isLineBreak (c : Char) : Bool :=
  c = '\n' || c = '\r' || c = '\x0b' || c = '\x0c' ||
  c = '\x1c' || c = '\x1d' || c = '\x1e' || c = '\x85' ||
  c = ' ' || c = ' '

/-- Helper for `pySplitlines`: `acc` is the current line, reversed. -/
def splitlinesGo : List Char → List Char → List (List Char)
  | acc, [] => if acc.isEmpty then [] else [acc.reverse]
  | acc, '\r' :: '\n' :: rest => acc.reverse :: splitlinesGo [] rest
  | acc, c :: rest =>
    if isLineBreak c then acc.reverse :: splitlinesGo [] rest
    else splitlinesGo (c :: acc) rest

/-- Python `str.splitlines()`: split at line boundaries (`\r\n` counts as
one boundary); a trailing boundary does not produce a final empty line. -/
def pySplitlines (s : List Char) : List (List Char) :=
  splitlinesGo [] s

/-- The two manpage directive kinds recognised by the extractor. -/
inductive Kind where
  | B
  | BI
deriving DecidableEq, Repr

/-- Python `re.match(r"\.(B|BI)\s+(.*)", line)`: the line must start with a dot,
then `B` or `BI`, then at least one whitespace character; the second group
is the rest of the line after the (greedy) run of whitespace. The regex
alternation tries `B` first and falls back to `BI` when no whitespace
follows the `B`; since `I` is not whitespace the two branches are
disjoint. -/
def matchDirective : List Char → Option (Kind × List Char)
  | '.' :: 'B' :: rest =>
    match rest with
    | [] => none
    | c :: cs =>
      if isPySpace c then some (Kind.B, cs.dropWhile isPySpace)
      else if c = 'I' then
        match cs with
        | [] => none
        | d :: ds =>
          if isPySpace d then some (Kind.BI, ds.dropWhile isPySpace)
          else none
      else none
  | _ => none

/-- Python `re.match(r'"([^\"]+)"', content)`: anchored at the start of
`content`, an opening double quote, one or more non-quote characters
(greedy), and a closing double quote. Returns the captured group. -/
def matchQuoted (s : List Char) : Option (List Char) :=
  match s with
  | a :: rest =>
    if a = '"' then
      let g := rest.takeWhile (fun c => !(c == '"'))
      let r := rest.dropWhile (fun c => !(c == '"'))
      if g.isEmpty then none
      else if r.isEmpty then none
      else some g
    else none
  | [] => none

/-- An option descriptor: one entry of the list built by `parse_options`
(a Python dict with keys `'name'` and `'has_value'`). -/
structure OptDesc where
  name : List Char
  has_value : Bool
deriving DecidableEq, Repr

/-- Python `p.startswith('--')`. -/
def startsWithDashDash (p : List Char) : Bool :=
  ['-', '-'].isPrefixOf p

/-- The normalisation `content.replace("\\-", "-").strip()` of line 38. -/
def normContent (raw : List Char) : List Char :=
  pyStrip isPySpace (replaceBH raw)

/-- A Python list comprehension whose body may raise: `none` when the
body raises on some element. -/
def listComp (f : α → Option β) : List α → Option (List β)
  | [] => some []
  | x :: xs =>
    match f x, listComp f xs with
    | some y, some ys => some (y :: ys)
    | _, _ => none

/-- The candidate list of the `B` branch (lines 40–41):
`[p.strip() for p in content.strip('"').split(',')]`. -/
def bParts (content : List Char) : List (List Char) :=
  (pySplitOn ',' (pyStrip (fun c => c == '"') content)).map (pyStrip isPySpace)

/-- The `kind == "B"` branch of `parse_options` (lines 39–46), applied to
the normalised content. `none` models an uncaught `IndexError`: Python's
`content.split(',')` always returns at least one element, so when there is
no `--` candidate the code evaluates `parts[0].split()[0]`, which raises
when the first candidate is empty. The `--` comprehension
`[p.split()[0] for p in parts if p.startswith('--')]` is embedded with
`listComp`, whose `none` is the comprehension raising. -/
def processB (content : List Char) : Option (List OptDesc) :=
  let parts := bParts content
  match listComp (fun p => (pySplitWS p).head?) (parts.filter startsWithDashDash) with
  | none => none
  | some (l :: _) => some [⟨l, false⟩]
  | some [] =>
    match parts with
    | [] => some []
    | p :: _ =>
      match (pySplitWS p).head? with
      | none => none
      | some w => some [⟨w, false⟩]

/-- The candidate list of the `BI` branch (lines 51–52):
`[p.strip() for p in m.group(1).replace("\\-", "-").split(',')]`. -/
def biParts (g : List Char) : List (List Char) :=
  (pySplitOn ',' (replaceBH g)).map (pyStrip isPySpace)

/-- The `kind == "BI"` branch of `parse_options` (lines 47–55), applied to
the normalised content. A line whose content does not match the quoted
pattern is skipped (`some []`). The (unreachable) `parts = []` arm mirrors
`parts[0]` raising `IndexError` on an empty list. -/
def processBI (content : List Char) : Option (List OptDesc) :=
  match matchQuoted content with
  | none => some []
  | some g =>
    match (biParts g).filter startsWithDashDash with
    | t :: _ => some [⟨t, true⟩]
    | [] =>
      match biParts g with
      | [] => none
      | q :: _ => some [⟨q, true⟩]

/-- One iteration of the `for line in mantext.splitlines()` loop: the
descriptors the line contributes (`some []` when it is skipped), or `none`
when the iteration raises. -/
def processLine (l : List Char) : Option (List OptDesc) :=
  match matchDirective l with
  | none => some []
  | some (Kind.B, raw) => processB (normContent raw)
  | some (Kind.BI, raw) => processBI (normContent raw)

/-- The whole loop of `parse_options` over a list of lines: accumulated
descriptors in line order, or `none` when some line raises. -/
def parseLines : List (List Char) → Option (List OptDesc)
  | [] => some []
  | l :: ls =>
    match processLine l, parseLines ls with
    | some d, some r => some (d ++ r)
    | _, _ => none

/-- The state of the manpage file on disk, as observed through
`MANPAGE.exists()` and `MANPAGE.read_text(encoding="utf-8")`:
`absent` — `exists()` is false; `unreadable` — `exists()` is true but
`read_text` raises (permissions, undecodable bytes); `readable text` —
`read_text` returns `text`. -/
inductive FileState where
  | absent
  | unreadable
  | readable (text : List Char)
deriving DecidableEq

/-- The embedding of `parse_options()` (lines 23–56): returns `some` descriptor list, or
`none` when the call raises an uncaught exception. -/
def parse_options : FileState → Option (List OptDesc)
  | FileState.absent => some []
  | FileState.unreadable => none
  | FileState.readable t => parseLines (pySplitlines t)

/-- The observable outcome of `main()` (lines 112–117): print an error
and `sys.exit(1)`; hand the options to `build_gui`; or die with an
uncaught exception from `parse_options`. -/
inductive MainResult where
  | errorExit
  | gui (opts : List OptDesc)
  | exception
deriving DecidableEq

/-- The embedding of `main()`: `if not opts:` report and exit(1), else `build_gui(opts)`. -/
def main (fs : FileState) : MainResult :=
  match parse_options fs with
  | none => MainResult.exception
  | some [] => MainResult.errorExit
  | some opts => MainResult.gui opts

/-- A Python dict store `widgets[k] = v` (insertion-ordered): overwrite the
value in place if the key is present, else append the binding. The stored
value is the var kind: `true` for a `StringVar` (text entry), `false` for
a `BooleanVar` (checkbox), i.e. the descriptor's `has_value`. -/
def dictInsert (k : List Char) (v : Bool) : List (List Char × Bool) → List (List Char × Bool)
  | [] => [(k, v)]
  | (k', v') :: rest =>
    if k' = k then (k', v) :: rest else (k', v') :: dictInsert k v rest

/-- Dict lookup, as used by `widgets[k]` and `k in widgets`. -/
def dictFind (k : List Char) : List (List Char × Bool) → Option Bool
  | [] => none
  | (k', v) :: rest => if k' = k then some v else dictFind k rest

/-- The `widgets` dict built by the loop of `build_gui` (lines 74–89):
one `widgets[opt["name"]] = var` per descriptor, in order. -/
def buildWidgets (opts : List OptDesc) : List (List Char × Bool) :=
  opts.foldl (fun d o => dictInsert o.name o.has_value d) []

/-- The tokens contributed by one `widgets` entry in `run_scrcpy`
(lines 93–100): a checked checkbox contributes its name; a text entry
with a non-empty stripped value contributes name then value; anything
else contributes nothing. `ub`/`us` give the user's checkbox and text
states at click time, keyed by option name. -/
def widgetChunk (ub : List Char → Bool) (us : List Char → List Char)
    (e : List Char × Bool) : List (List Char) :=
  if e.2 then
    let v := pyStrip isPySpace (us e.1)
    if v.isEmpty then [] else [e.1, v]
  else if ub e.1 then [e.1] else []

/-- Per-entry token chunks of the assembled command, in dict order. -/
def cmdChunks (ws : List (List Char × Bool)) (ub : List Char → Bool)
    (us : List Char → List Char) : List (List (List Char)) :=
  ws.map (widgetChunk ub us)

/-- The full argument list `cmd` passed to `subprocess.run`. -/
def run_scrcpy_cmd (ws : List (List Char × Bool)) (ub : List Char → Bool)
    (us : List Char → List Char) : List (List Char) :=
  String.toList "scrcpy" :: (cmdChunks ws ub us).flatten

/-! Helper lemmas about the string primitives. -/

/-- Python `str.split(sep)` never returns an empty list. -/
theorem pySplitOn_ne_nil (sep : Char) (s : List Char) : pySplitOn sep s ≠ [] := by
  cases s with
  | nil => simp [pySplitOn]
  | cons c cs =>
    by_cases h : c = sep <;> simp only [pySplitOn, h, if_true, if_false, reduceIte]
    · simp
    · cases pySplitOn sep cs <;> simp

/-- The first element of a `dropWhile` result falsifies the predicate. -/
theorem dropWhile_head_false {α : Type} (p : α → Bool) (s : List α) (c : α)
    (cs : List α) (h : s.dropWhile p = c :: cs) : p c = false := by
  induction s with
  | nil => simp [List.dropWhile] at h
  | cons a as ih =>
    rw [List.dropWhile_cons] at h
    by_cases hp : p a
    · exact ih (by simpa [hp] using h)
    · simp only [hp, if_false, reduceIte] at h
      cases h
      exact Bool.eq_false_iff.mpr hp

/-- A non-empty `strip` result starts with a character outside the
stripped class. -/
theorem pyStrip_head_false (p : Char → Bool) (s : List Char) (c : Char)
    (cs : List Char) (h : pyStrip p s = c :: cs) : p c = false := by
  have h2 : ((s.dropWhile p).reverse.dropWhile p).reverse
      ++ ((s.dropWhile p).reverse.takeWhile p).reverse = s.dropWhile p := by
    rw [← List.reverse_append, List.takeWhile_append_dropWhile,
      List.reverse_reverse]
  unfold pyStrip at h
  rw [h] at h2
  exact dropWhile_head_false p s c _ (by simpa using h2.symm)

/-- Applying `dropWhile` to a list on which the predicate is everywhere false. -/
theorem dropWhile_of_all_false {α : Type} (p : α → Bool) (s : List α)
    (h : ∀ c ∈ s, p c = false) : s.dropWhile p = s := by
  cases s with
  | nil => rfl
  | cons a as =>
    rw [List.dropWhile_cons]
    simp [h a (by simp)]

/-- Stripping a list containing no character of the class is the
identity. -/
theorem pyStrip_of_all_false (p : Char → Bool) (s : List Char)
    (h : ∀ c ∈ s, p c = false) : pyStrip p s = s := by
  unfold pyStrip
  rw [dropWhile_of_all_false p s h,
    dropWhile_of_all_false p s.reverse (fun c hc => h c (List.mem_reverse.mp hc)),
    List.reverse_reverse]

/-- Characterisation of `splitWSGo` with an open word. -/
theorem splitWSGo_some (s : List Char) (w : List Char) :
    splitWSGo (some w) s
      = (w.reverse ++ s.takeWhile (fun c => !isPySpace c))
        :: splitWSGo none (s.dropWhile (fun c => !isPySpace c)) := by
  induction s generalizing w with
  | nil => simp [splitWSGo]
  | cons c cs ih =>
    by_cases h : isPySpace c
    · simp [splitWSGo, h, List.takeWhile_cons, List.dropWhile_cons]
    · simp only [splitWSGo, h, if_false, reduceIte, List.takeWhile_cons,
        List.dropWhile_cons, Bool.not_eq_true']
      rw [ih]
      simp [h]

/-- Splitting a string that starts with a non-space character: the first
word is the leading run of non-space characters. -/
theorem pySplitWS_cons_of_not_space (c : Char) (cs : List Char)
    (h : isPySpace c = false) :
    pySplitWS (c :: cs)
      = (c :: cs.takeWhile (fun x => !isPySpace x))
        :: splitWSGo none (cs.dropWhile (fun x => !isPySpace x)) := by
  unfold pySplitWS
  simp only [splitWSGo, h, if_false, reduceIte, Bool.false_eq_true]
  rw [splitWSGo_some]
  simp

/-- Every word produced by `s.split()` is non-empty and contains no
whitespace. -/
theorem splitWSGo_sound (s : List Char) (acc : Option (List Char))
    (hacc : ∀ w, acc = some w → w ≠ [] ∧ ∀ c ∈ w, isPySpace c = false) :
    ∀ u ∈ splitWSGo acc s, u ≠ [] ∧ ∀ c ∈ u, isPySpace c = false := by
  induction s generalizing acc with
  | nil =>
    intro u hu
    cases acc with
    | none => simp [splitWSGo] at hu
    | some w =>
      simp only [splitWSGo, List.mem_singleton] at hu
      obtain ⟨hne, hall⟩ := hacc w rfl
      subst hu
      exact ⟨by simpa using hne, fun c hc => hall c (by simpa using hc)⟩
  | cons c cs ih =>
    intro u hu
    cases acc with
    | none =>
      by_cases h : isPySpace c
      · simp only [splitWSGo, h, if_true, reduceIte] at hu
        exact ih none (by simp) u hu
      · simp only [splitWSGo, h, if_false, reduceIte] at hu
        refine ih (some [c]) ?_ u hu
        intro w hw
        cases hw
        exact ⟨by simp, by simpa using Bool.eq_false_iff.mpr h⟩
    | some w =>
      obtain ⟨hne, hall⟩ := hacc w rfl
      by_cases h : isPySpace c
      · simp only [splitWSGo, h, if_true, reduceIte, List.mem_cons] at hu
        rcases hu with hu | hu
        · subst hu
          exact ⟨by simpa using hne, fun x hx => hall x (by simpa using hx)⟩
        · exact ih none (by simp) u hu
      · simp only [splitWSGo, h, if_false, reduceIte] at hu
        refine ih (some (c :: w)) ?_ u hu
        intro w' hw'
        cases hw'
        refine ⟨by simp, ?_⟩
        intro x hx
        rcases List.mem_cons.mp hx with hx | hx
        · subst hx; exact Bool.eq_false_iff.mpr h
        · exact hall x hx

/-- A `listComp` run succeeds when the body succeeds on every element. -/
theorem listComp_isSome {α β : Type} (f : α → Option β) (xs : List α)
    (h : ∀ x ∈ xs, f x ≠ none) : ∃ ys, listComp f xs = some ys := by
  induction xs with
  | nil => exact ⟨[], rfl⟩
  | cons x xs ih =>
    obtain ⟨ys, hys⟩ := ih fun a ha => h a (List.mem_cons_of_mem _ ha)
    cases hfx : f x with
    | none => exact absurd hfx (h x (List.mem_cons_self _ _))
    | some y => exact ⟨y :: ys, by simp [listComp, hfx, hys]⟩

/-- The first element of a successful `listComp` is the body's value on
the first element. -/
theorem listComp_cons_some {α β : Type} (f : α → Option β) (x : α)
    (xs : List α) (y : β) (ys : List β)
    (h : listComp f (x :: xs) = some (y :: ys)) : f x = some y := by
  simp only [listComp] at h
  cases hfx : f x with
  | none => simp [hfx] at h
  | some y' =>
    cases hr : listComp f xs with
    | none => simp [hfx, hr] at h
    | some ys' =>
      simp only [hfx, hr] at h
      cases h
      rfl

/-- Every element of a successful `listComp` comes from the body on some
input element. -/
theorem listComp_mem {α β : Type} (f : α → Option β) (xs : List α)
    (ys : List β) (y : β) (h : listComp f xs = some ys) (hy : y ∈ ys) :
    ∃ x ∈ xs, f x = some y := by
  induction xs generalizing ys with
  | nil =>
    simp only [listComp] at h
    cases h
    simp at hy
  | cons x xs ih =>
    simp only [listComp] at h
    cases hfx : f x with
    | none => simp [hfx] at h
    | some y' =>
      cases hr : listComp f xs with
      | none => simp [hfx, hr] at h
      | some ys' =>
        simp only [hfx, hr] at h
        cases h
        rcases List.mem_cons.mp hy with hy | hy
        · exact ⟨x, List.mem_cons_self _ _, hy ▸ hfx⟩
        · obtain ⟨a, ha, hfa⟩ := ih ys' hr hy
          exact ⟨a, List.mem_cons_of_mem _ ha, hfa⟩

/-! Helper lemmas about the extractor. -/

/-- Every descriptor emitted by the `B` branch is a flag whose name is a
non-empty whitespace-free word. -/
theorem processB_desc (content : List Char) (ds : List OptDesc) (d : OptDesc)
    (h : processB content = some ds) (hd : d ∈ ds) :
    d.has_value = false ∧ d.name ≠ [] ∧ ∀ c ∈ d.name, isPySpace c = false := by
  simp only [processB] at h
  cases hlc : listComp (fun p => (pySplitWS p).head?)
      ((bParts content).filter startsWithDashDash) with
  | none => rw [hlc] at h; cases h
  | some ls =>
    rw [hlc] at h
    cases ls with
    | cons l rest =>
      cases h
      rcases List.mem_singleton.mp hd with rfl
      obtain ⟨x, _, hfx⟩ := listComp_mem _ _ _ l hlc (List.mem_cons_self _ _)
      have hlmem : l ∈ pySplitWS x := by
        cases hws : pySplitWS x with
        | nil => rw [hws] at hfx; cases hfx
        | cons u us =>
          rw [hws] at hfx
          cases hfx
          exact List.mem_cons_self _ _
      have := splitWSGo_sound x none (fun w hw => nomatch hw) l hlmem
      exact ⟨rfl, this.1, this.2⟩
    | nil =>
      dsimp only at h
      cases hbp : bParts content with
      | nil => rw [hbp] at h; cases h; cases hd
      | cons p ps =>
        rw [hbp] at h
        dsimp only at h
        cases hws : (pySplitWS p).head? with
        | none => rw [hws] at h; cases h
        | some w =>
          rw [hws] at h
          cases h
          rcases List.mem_singleton.mp hd with rfl
          have hwmem : w ∈ pySplitWS p := by
            cases hl : pySplitWS p with
            | nil => rw [hl] at hws; cases hws
            | cons u us =>
              rw [hl] at hws
              cases hws
              exact List.mem_cons_self _ _
          have := splitWSGo_sound p none (fun w hw => nomatch hw) w hwmem
          exact ⟨rfl, this.1, this.2⟩

/-- Every descriptor emitted by the `BI` branch is a value option. -/
theorem processBI_desc (content : List Char) (ds : List OptDesc) (d : OptDesc)
    (h : processBI content = some ds) (hd : d ∈ ds) : d.has_value = true := by
  simp only [processBI] at h
  cases hq : matchQuoted content with
  | none => rw [hq] at h; cases h; cases hd
  | some g =>
    rw [hq] at h
    dsimp only at h
    cases hf : (biParts g).filter startsWithDashDash with
    | cons t ts =>
      rw [hf] at h
      cases h
      rcases List.mem_singleton.mp hd with rfl
      rfl
    | nil =>
      rw [hf] at h
      dsimp only at h
      cases hbp : biParts g with
      | nil => rw [hbp] at h; cases h
      | cons q qs =>
        rw [hbp] at h
        cases h
        rcases List.mem_singleton.mp hd with rfl
        rfl

/-- Per-line origin of descriptors, lifted through the whole loop. -/
theorem parseLines_desc (ls : List (List Char)) (ds : List OptDesc)
    (d : OptDesc) (h : parseLines ls = some ds) (hd : d ∈ ds)
    (hv : d.has_value = false) :
    d.name ≠ [] ∧ ∀ c ∈ d.name, isPySpace c = false := by
  induction ls generalizing ds with
  | nil =>
    simp only [parseLines] at h
    cases h
    cases hd
  | cons l ls ih =>
    simp only [parseLines] at h
    cases hpl : processLine l with
    | none => rw [hpl] at h; cases h
    | some d1 =>
      rw [hpl] at h
      cases hr : parseLines ls with
      | none => rw [hr] at h; cases h
      | some r =>
        rw [hr] at h
        cases h
        rcases List.mem_append.mp hd with hmem | hmem
        · simp only [processLine] at hpl
          cases hmd : matchDirective l with
          | none => rw [hmd] at hpl; cases hpl; cases hmem
          | some kr =>
            rw [hmd] at hpl
            cases kr with
            | mk k raw =>
              cases k with
              | B => exact (processB_desc _ _ _ hpl hmem).2
              | BI =>
                have := processBI_desc _ _ _ hpl hmem
                rw [hv] at this
                cases this
        · exact ih r hr hmem

/-- A successful quoted-pattern match decomposes its input: the content
starts with a double quote, the group is the non-empty run up to the next
double quote, and that closing quote is present. -/
theorem matchQuoted_some (c g : List Char) (h : matchQuoted c = some g) :
    (∃ r, c = '"' :: (g ++ '"' :: r)) ∧ g ≠ [] := by
  cases c with
  | nil => simp [matchQuoted] at h
  | cons a rest =>
    simp only [matchQuoted] at h
    by_cases ha : a = '"'
    · subst ha
      rw [if_pos rfl] at h
      by_cases hg : (rest.takeWhile (fun c => !(c == '"'))).isEmpty
      · rw [if_pos hg] at h; cases h
      · rw [if_neg hg] at h
        by_cases hr : (rest.dropWhile (fun c => !(c == '"'))).isEmpty
        · rw [if_pos hr] at h; cases h
        · rw [if_neg hr] at h
          injection h with h
          subst h
          constructor
          · obtain ⟨b, r', hbr⟩ : ∃ b r',
                rest.dropWhile (fun c => !(c == '"')) = b :: r' := by
              cases hdw : rest.dropWhile (fun c => !(c == '"')) with
              | nil => rw [hdw] at hr; simp at hr
              | cons b r' => exact ⟨b, r', rfl⟩
            have hb : (!(b == '"')) = false := dropWhile_head_false _ rest b r' hbr
            have hb2 : b = '"' := by simpa using hb
            refine ⟨r', ?_⟩
            have hsum : rest.takeWhile (fun c => !(c == '"'))
                ++ rest.dropWhile (fun c => !(c == '"')) = rest :=
              List.takeWhile_append_dropWhile (fun c => !(c == '"')) rest
            rw [hbr, hb2] at hsum
            exact congrArg (List.cons '"') hsum.symm
          · intro hnil
            rw [hnil] at hg
            simp at hg
    · rw [if_neg ha] at h
      cases h

/-- The `BI` candidate list is never empty. -/
theorem biParts_ne_nil (g : List Char) : biParts g ≠ [] := by
  simp only [biParts]
  intro h
  exact pySplitOn_ne_nil ',' (replaceBH g) (by simpa using h)

/-! Helper lemmas about the widgets dict and the assembled command. -/

/-- Looking up after a dict store: the stored key maps to the new value,
other keys are untouched. -/
theorem dictFind_insert (n k : List Char) (v : Bool)
    (d : List (List Char × Bool)) :
    dictFind n (dictInsert k v d) = if k = n then some v else dictFind n d := by
  induction d with
  | nil => simp [dictInsert, dictFind]
  | cons e rest ih =>
    obtain ⟨k', v'⟩ := e
    by_cases hk : k' = k
    · subst hk
      simp only [dictInsert, if_pos rfl, dictFind]
      by_cases hn : k' = n <;> simp [hn]
    · simp only [dictInsert, if_neg hk, dictFind]
      by_cases hn : k' = n
      · subst hn
        have hkn : ¬(k = k') := fun hh => hk hh.symm
        simp [hkn]
      · simp [hn, ih]

/-- A dict store keeps the key sequence, appending the key only when it
is new. -/
theorem dictInsert_keys (k : List Char) (v : Bool)
    (d : List (List Char × Bool)) :
    (dictInsert k v d).map Prod.fst
      = if k ∈ d.map Prod.fst then d.map Prod.fst
        else d.map Prod.fst ++ [k] := by
  induction d with
  | nil => simp [dictInsert]
  | cons e rest ih =>
    obtain ⟨k', v'⟩ := e
    by_cases hk : k' = k
    · subst hk
      simp [dictInsert]
    · have hkk : k ≠ k' := fun h => hk h.symm
      simp only [dictInsert, if_neg hk, List.map_cons, ih, List.mem_cons]
      by_cases hm : k ∈ rest.map Prod.fst <;> simp [hm, hkk]

/-- A dict store preserves distinctness of the keys. -/
theorem dictInsert_nodup (k : List Char) (v : Bool)
    (d : List (List Char × Bool)) (h : (d.map Prod.fst).Nodup) :
    ((dictInsert k v d).map Prod.fst).Nodup := by
  rw [dictInsert_keys]
  by_cases hm : k ∈ d.map Prod.fst
  · simpa [hm] using h
  · simp [hm, List.nodup_append, h]

/-- The keys of the widgets dict are distinct. -/
theorem buildWidgets_keys_nodup (opts : List OptDesc) :
    ((buildWidgets opts).map Prod.fst).Nodup := by
  suffices h : ∀ (os : List OptDesc) (d : List (List Char × Bool)),
      (d.map Prod.fst).Nodup →
      ((os.foldl (fun d o => dictInsert o.name o.has_value d) d).map
        Prod.fst).Nodup by
    exact h opts [] (by simp)
  intro os
  induction os with
  | nil => intro d hd; simpa using hd
  | cons o os ih =>
    intro d hd
    exact ih _ (dictInsert_nodup o.name o.has_value d hd)

/-- The widgets dict realises "last store wins": the value found for a
name is the `has_value` of the last descriptor carrying that name. -/
theorem buildWidgets_last_wins (opts : List OptDesc) (n : List Char) :
    dictFind n (buildWidgets opts)
      = (opts.reverse.find? (fun o => decide (o.name = n))).map
          OptDesc.has_value := by
  induction opts using List.reverseRecOn with
  | nil => simp [buildWidgets, dictFind]
  | append_singleton os o ih =>
    have hfold : buildWidgets (os ++ [o])
        = dictInsert o.name o.has_value (buildWidgets os) := by
      simp [buildWidgets, List.foldl_append]
    rw [hfold, dictFind_insert]
    by_cases hn : o.name = n
    · simp [hn, List.find?_cons]
    · simp [hn, ih, List.find?_cons]

/-- A command chunk is either empty or starts with its widget's name. -/
theorem widgetChunk_head (ub : List Char → Bool) (us : List Char → List Char)
    (e : List Char × Bool) :
    (widgetChunk ub us e).head? = none
      ∨ (widgetChunk ub us e).head? = some e.1 := by
  obtain ⟨k, hv⟩ := e
  simp only [widgetChunk]
  split_ifs <;> simp

/-- At most as many chunks start with a name as there are dict entries
keyed by it. -/
theorem cmdChunks_count (ws : List (List Char × Bool))
    (ub : List Char → Bool) (us : List Char → List Char) (n : List Char) :
    ((cmdChunks ws ub us).filter
      (fun ch => decide (ch.head? = some n))).length
      ≤ (ws.map Prod.fst).count n := by
  induction ws with
  | nil => simp [cmdChunks]
  | cons e rest ih =>
    simp only [cmdChunks] at ih ⊢
    simp only [List.map_cons, List.filter_cons]
    by_cases hch : (widgetChunk ub us e).head? = some n
    · have he : e.1 = n := by
        rcases widgetChunk_head ub us e with h0 | h0
        · rw [h0] at hch; cases hch
        · rw [h0] at hch; injection hch
      simp [hch, he, List.count_cons]
      omega
    · simp [hch, List.count_cons]
      exact le_trans ih (Nat.le_add_right _ _)

/-- In a duplicate-free list every element occurs at most once. -/
theorem count_le_one_of_nodup {α : Type} [BEq α] [LawfulBEq α]
    (l : List α) (h : l.Nodup) (a : α) : l.count a ≤ 1 := by
  induction l with
  | nil => simp
  | cons b l ih =>
    rw [List.count_cons]
    rcases List.nodup_cons.mp h with ⟨hb, hl⟩
    by_cases hab : (b == a) = true
    · have hab2 : b = a := eq_of_beq hab
      subst hab2
      have hz : l.count b = 0 := List.count_eq_zero.mpr hb
      simp [hz, hab]
    · rw [if_neg hab]
      simpa using ih hl

/-! Claim theorems. -/

/-- C1. The spec claims the extractor never raises, and in particular
that a flag-directive (`B`) line whose content is empty after
quote-stripping is skipped. The code instead raises: on the single line
`.B ""` the quote-stripped content is empty, `split(',')` still returns
one (empty) candidate, the `elif parts:` guard therefore passes, and
`parts[0].split()[0]` raises `IndexError`. The embedded call evaluates to
`none` (an uncaught exception), not to a descriptor list. -/
theorem parse_options_raises_on_degenerate_flag_line :
    parse_options (FileState.readable (String.toList ".B \"\"")) = none := by
  decide

/-- C2 counterexample. The claim says every descriptor's `name` is
non-empty and is the first whitespace-delimited token of the matched
option group. On the value-directive line `.BI ","` the quoted group is
`,`, whose first comma-candidate strips to the empty string, and the code
emits a descriptor with an empty `name`. -/
theorem value_directive_yields_empty_name :
    parse_options (FileState.readable (String.toList ".BI \",\""))
      = some [{ name := [], has_value := true }] := by
  decide

/-- C2 as amended: descriptors produced by the flag-directive (`B`)
branch — exactly those with `has_value = false` — do have a non-empty,
whitespace-free name (the first whitespace-delimited word of the selected
candidate). Value-directive (`BI`) descriptors carry the full selected
candidate, which may be empty or contain internal whitespace. -/
theorem flag_descriptor_names_are_words (fs : FileState) (ds : List OptDesc)
    (d : OptDesc) (h : parse_options fs = some ds) (hd : d ∈ ds)
    (hv : d.has_value = false) :
    d.name ≠ [] ∧ ∀ c ∈ d.name, isPySpace c = false := by
  cases fs with
  | absent =>
    simp only [parse_options] at h
    have hds : ds = [] := by simpa using h.symm
    subst hds
    cases hd
  | unreadable =>
    simp only [parse_options] at h
    cases h
  | readable t =>
    simp only [parse_options] at h
    exact parseLines_desc _ _ _ h hd hv

/-- C2 witness: the amended theorem applied to the line
`.B "-f, --fullscreen"`. -/
theorem flag_descriptor_names_are_words_witness :
    String.toList "--fullscreen" ≠ []
      ∧ ∀ c ∈ String.toList "--fullscreen", isPySpace c = false :=
  flag_descriptor_names_are_words
    (FileState.readable (String.toList ".B \"-f, --fullscreen\""))
    [{ name := String.toList "--fullscreen", has_value := false }]
    { name := String.toList "--fullscreen", has_value := false }
    (by decide) (by decide) rfl

/-- C3 counterexample. The claim says a `BI` line's option group is the
first double-quoted substring occurring anywhere in the content. The
regex `re.match(r'"([^\"]+)"', content)` is anchored at the start of the
content, so the line `.BI x "--foo"` — whose content contains the quoted
substring `--foo`, just not at position 0 — yields no descriptor instead
of the claimed `⟨"--foo", true⟩`. -/
theorem quoted_group_not_at_start_is_skipped :
    parse_options (FileState.readable (String.toList ".BI x \"--foo\""))
      = some [] := by
  decide

/-- C3 as amended: a value-directive (`BI`) line contributes a descriptor
only when its normalised content begins with a double-quoted group: if
the anchored quoted-pattern match fails the line yields nothing, and when
it succeeds the content literally decomposes as `"` group `"` rest with a
non-empty group, and exactly one value descriptor is emitted. -/
theorem bi_quoted_group_is_anchored (l raw : List Char)
    (h : matchDirective l = some (Kind.BI, raw)) :
    (matchQuoted (normContent raw) = none → processLine l = some []) ∧
    ∀ g, matchQuoted (normContent raw) = some g →
      (∃ r, normContent raw = '"' :: (g ++ '"' :: r)) ∧ g ≠ [] ∧
      ∃ d, processLine l = some [d] ∧ d.has_value = true := by
  constructor
  · intro hq
    simp only [processLine, h, processBI, hq]
  · intro g hq
    obtain ⟨hdec, hne⟩ := matchQuoted_some _ _ hq
    refine ⟨hdec, hne, ?_⟩
    simp only [processLine, h, processBI, hq]
    cases hf : (biParts g).filter startsWithDashDash with
    | cons t ts => exact ⟨⟨t, true⟩, rfl, rfl⟩
    | nil =>
      cases hbp : biParts g with
      | nil => exact absurd hbp (biParts_ne_nil g)
      | cons q qs => exact ⟨⟨q, true⟩, rfl, rfl⟩

/-- C3 witness: the amended theorem applied to the line `.BI x "y"`,
whose content does not start with a quote. -/
theorem bi_quoted_group_is_anchored_witness :
    processLine (String.toList ".BI x \"y\"") = some [] :=
  (bi_quoted_group_is_anchored (String.toList ".BI x \"y\"")
    (String.toList "x \"y\"") (by decide)).1 (by decide)

/-- C4 counterexample. The claim says a flag-directive line with at
least one candidate and no double-hyphen token always emits a descriptor
named after the first candidate's first word. On `.B ,` the candidate
list is two empty strings: there is no double-hyphen token, the first
candidate has no first word, and the code raises `IndexError` instead of
emitting the claimed descriptor. -/
theorem flag_line_empty_first_candidate_raises :
    parse_options (FileState.readable (String.toList ".B ,")) = none := by
  decide

/-- C4 as amended: on the `B` branch, if some comma-candidate starts with
a double hyphen the emitted descriptor is the first such candidate's
first whitespace-delimited word with `has_value = false`; otherwise, the
first candidate's first word is emitted — provided that first candidate
is non-empty (when it is empty the call raises instead, see the
counterexample). -/
theorem flag_branch_selects_first_word (content : List Char) :
    (∀ p ps, (bParts content).filter startsWithDashDash = p :: ps →
      processB content
        = some [{ name := (pySplitWS p).headD [], has_value := false }]) ∧
    (∀ q qs, (bParts content).filter startsWithDashDash = [] →
      bParts content = q :: qs → q ≠ [] →
      processB content
        = some [{ name := (pySplitWS q).headD [], has_value := false }]) := by
  constructor
  · intro p ps hf
    have hsplitWord : ∀ x, startsWithDashDash x = true →
        ∃ w ws, pySplitWS x = w :: ws := by
      intro x hx
      obtain ⟨t, ht⟩ := List.isPrefixOf_iff_prefix.mp hx
      have hx2 : x = '-' :: '-' :: t := ht.symm
      rw [hx2, pySplitWS_cons_of_not_space '-' ('-' :: t) (by decide)]
      exact ⟨_, _, rfl⟩
    have hp : startsWithDashDash p = true := by
      have : p ∈ (bParts content).filter startsWithDashDash := by
        rw [hf]; exact List.mem_cons_self _ _
      exact (List.mem_filter.mp this).2
    obtain ⟨w, ws, hws⟩ := hsplitWord p hp
    have hrest : ∃ ys, listComp (fun x => (pySplitWS x).head?) ps = some ys := by
      refine listComp_isSome _ _ ?_
      intro x hx
      have hxf : x ∈ (bParts content).filter startsWithDashDash := by
        rw [hf]; exact List.mem_cons_of_mem _ hx
      obtain ⟨w', ws', hws'⟩ := hsplitWord x (List.mem_filter.mp hxf).2
      simp [hws']
    obtain ⟨ys, hys⟩ := hrest
    have hlc : listComp (fun x => (pySplitWS x).head?)
        ((bParts content).filter startsWithDashDash) = some (w :: ys) := by
      rw [hf]
      simp [listComp, hws, hys]
    simp only [processB, hlc]
    rw [hws]
    rfl
  · intro q qs hf hbp hq
    obtain ⟨r, hr⟩ : ∃ r, q = pyStrip isPySpace r := by
      have hmem : q ∈ bParts content := by
        rw [hbp]; exact List.mem_cons_self _ _
      simp only [bParts, List.mem_map] at hmem
      obtain ⟨r, _, hr⟩ := hmem
      exact ⟨r, hr.symm⟩
    obtain ⟨c0, cs0, hq2⟩ : ∃ c0 cs0, q = c0 :: cs0 := by
      cases q with
      | nil => exact absurd rfl hq
      | cons c0 cs0 => exact ⟨c0, cs0, rfl⟩
    have hc0 : isPySpace c0 = false :=
      pyStrip_head_false isPySpace r c0 cs0 (by rw [← hr, ← hq2])
    have hws : pySplitWS q = (c0 :: cs0.takeWhile (fun x => !isPySpace x))
        :: splitWSGo none (cs0.dropWhile (fun x => !isPySpace x)) := by
      rw [hq2]
      exact pySplitWS_cons_of_not_space c0 cs0 hc0
    have hlc : listComp (fun x => (pySplitWS x).head?)
        ((bParts content).filter startsWithDashDash) = some [] := by
      rw [hf]; rfl
    simp only [processB, hlc]
    rw [hbp]
    dsimp only
    rw [hws]
    rfl

/-- C4 witness: both flag-branch behaviours at concrete contents —
`-f, --fullscreen` takes the long form's first word. -/
theorem flag_branch_selects_first_word_witness :
    processB (String.toList "-f, --fullscreen")
      = some [{ name := String.toList "--fullscreen", has_value := false }] :=
  ((flag_branch_selects_first_word (String.toList "-f, --fullscreen")).1
    (String.toList "--fullscreen") [] (by decide)).trans (by decide)

/-- C5. On the `BI` branch the selected comma-candidate is used in full:
if some candidate starts with a double hyphen the first such candidate is
the descriptor's name, unreduced (it may contain whitespace); otherwise
the first candidate is used, also in full; `has_value` is true. -/
theorem value_branch_selects_full_token (c g : List Char)
    (h : matchQuoted c = some g) :
    (∀ p ps, (biParts g).filter startsWithDashDash = p :: ps →
      processBI c = some [{ name := p, has_value := true }]) ∧
    ((biParts g).filter startsWithDashDash = [] →
      ∀ q qs, biParts g = q :: qs →
      processBI c = some [{ name := q, has_value := true }]) := by
  constructor
  · intro p ps hf
    simp only [processBI, h, hf]
  · intro hf q qs hbp
    simp only [processBI, h]
    rw [hf]
    dsimp only
    rw [hbp]

/-- C5 witness: the line content `"-b, --bit-rate rate"` selects the full
token `--bit-rate rate`, whitespace included. -/
theorem value_branch_selects_full_token_witness :
    processBI (String.toList "\"-b, --bit-rate rate\"")
      = some [{ name := String.toList "--bit-rate rate", has_value := true }] :=
  (value_branch_selects_full_token (String.toList "\"-b, --bit-rate rate\"")
    (String.toList "-b, --bit-rate rate") (by decide)).1
    (String.toList "--bit-rate rate") [] (by decide)

/-- C6. The loop appends each line's contribution in source order:
parsing a concatenation of line blocks concatenates their descriptor
lists (in that order, duplicates kept), and a single line contributes
exactly its own descriptors. Two identical matching lines therefore
produce two identical descriptors, in source order. -/
theorem parse_is_line_ordered :
    (∀ xs ys, parseLines (xs ++ ys)
        = (parseLines xs).bind fun a => (parseLines ys).map fun b => a ++ b) ∧
    (∀ l, parseLines [l] = processLine l) := by
  constructor
  · intro xs ys
    induction xs with
    | nil =>
      simp only [List.nil_append, parseLines]
      cases parseLines ys <;> simp
    | cons l ls ih =>
      cases hpl : processLine l with
      | none => simp [parseLines, hpl]
      | some d =>
        cases hls : parseLines ls with
        | none => simp [parseLines, hpl, hls, ih]
        | some a =>
          cases hys : parseLines ys with
          | none => simp [parseLines, hpl, hls, hys, ih]
          | some b => simp [parseLines, hpl, hls, hys, ih, List.append_assoc]
  · intro l
    cases hpl : processLine l <;> simp [parseLines, hpl]

/-- C7 counterexample. The claim covers an existing-but-unreadable
manpage, but the code only guards `MANPAGE.exists()`: when the file
exists and `read_text` fails (permissions, undecodable bytes) the
exception propagates — the call does not return the claimed empty
sequence. -/
theorem unreadable_manpage_raises :
    parse_options FileState.unreadable = none := rfl

/-- C7 as amended: an absent manpage yields the empty sequence with no
error, and so does a readable manpage none of whose lines matches the
`B`/`BI` directive pattern. (An existing but unreadable manpage instead
raises, see the counterexample.) -/
theorem absent_or_no_match_yields_empty :
    parse_options FileState.absent = some [] ∧
    ∀ t, (∀ l ∈ pySplitlines t, matchDirective l = none) →
      parse_options (FileState.readable t) = some [] := by
  refine ⟨rfl, ?_⟩
  intro t ht
  simp only [parse_options]
  have key : ∀ ls : List (List Char),
      (∀ l ∈ ls, matchDirective l = none) → parseLines ls = some [] := by
    intro ls
    induction ls with
    | nil => intro _; rfl
    | cons l ls ih =>
      intro hall
      have h1 : processLine l = some [] := by
        simp [processLine, hall l (List.mem_cons_self _ _)]
      simp [parseLines, h1, ih fun x hx => hall x (List.mem_cons_of_mem _ hx)]
  exact key _ ht

/-- C7 witness: a readable two-line document with no directive lines. -/
theorem absent_or_no_match_yields_empty_witness :
    parse_options (FileState.readable (String.toList "hello\nworld"))
      = some [] :=
  absent_or_no_match_yields_empty.2 (String.toList "hello\nworld") (by decide)

/-- C8. When `parse_options` returns (does not raise), `main` ends in the
report-and-exit(1) outcome exactly when the returned sequence is empty;
a non-empty sequence always reaches the GUI. -/
theorem empty_options_is_sole_fatal_exit (fs : FileState)
    (opts : List OptDesc) (h : parse_options fs = some opts) :
    main fs = MainResult.errorExit ↔ opts = [] := by
  simp only [main, h]
  cases opts with
  | nil => simp
  | cons o os => simp

/-- C8 witness: with an absent manpage the options list is empty and
`main` exits with the error report. -/
theorem empty_options_is_sole_fatal_exit_witness :
    main FileState.absent = MainResult.errorExit :=
  (empty_options_is_sole_fatal_exit FileState.absent [] rfl).mpr rfl

/-- C9. Extraction is deterministic and stateless: the embedded
`parse_options` is a pure function of the file state (the Python function
reads only locals and the file's current content — there is no module
state mutated between calls), so two runs on the same unchanged source
return the same descriptor sequence. -/
theorem parse_options_deterministic (fs : FileState)
    (r1 r2 : Option (List OptDesc)) (h1 : parse_options fs = r1)
    (h2 : parse_options fs = r2) : r1 = r2 :=
  h1.symm.trans h2

/-- C9 witness: two runs on the absent file state agree. -/
theorem parse_options_deterministic_witness :
    (some [] : Option (List OptDesc)) = some [] :=
  parse_options_deterministic FileState.absent (some []) (some []) rfl rfl

/-- C10. The GUI keys widgets by option name: the widget dict has
pairwise-distinct keys (each name occurs at most once), lookup of a name
returns the variable kind of the *last* descriptor with that name (the
later store overwrites the earlier), and consequently at most one chunk
of the assembled `scrcpy` command line starts with any given option
name — each option is introduced at most once, whatever the user typed
or checked. -/
theorem widget_map_is_keyed_and_last_wins (opts : List OptDesc)
    (n : List Char) (ub : List Char → Bool) (us : List Char → List Char) :
    ((buildWidgets opts).map Prod.fst).count n ≤ 1 ∧
    dictFind n (buildWidgets opts)
      = (opts.reverse.find? fun o => decide (o.name = n)).map
          OptDesc.has_value ∧
    ((cmdChunks (buildWidgets opts) ub us).filter
      fun ch => decide (ch.head? = some n)).length ≤ 1 := by
  refine ⟨?_, buildWidgets_last_wins opts n, ?_⟩
  · exact count_le_one_of_nodup _ (buildWidgets_keys_nodup opts) n
  · exact le_trans (cmdChunks_count (buildWidgets opts) ub us n)
      (count_le_one_of_nodup _ (buildWidgets_keys_nodup opts) n)

end ScrcpyGui
